import Mathlib

/-!
Verification of the inner-product argument implementation in
`src/inner_product_proof.rs` (an mpc-bulletproof port of the dalek
bulletproofs inner-product proof to the Stark curve).

Shallow embedding conventions:
* `Scalar` is the scalar field `F_q` of the Stark curve, embedded as `ZMod q`.
* `StarkPoint` is the prime-order group of order `q`; every such group is
  isomorphic to the cyclic group `ZMod q` with the scalar action given by
  multiplication, which is how we model it (the group itself lives in the
  external `mpc-stark` crate and is out of scope per the specification).
* Machine integers (`usize`) are modelled as `Nat`, with explicit wrapping
  (`% 2^64`) at the one subtraction that can overflow (release-mode Rust
  wrapping semantics in `from_bytes`).
* Fallible operations return `PResult`, mirroring `Result<_, ProofError>`.
* The Fiat-Shamir transcript (crate `merlin` / `crate::transcript`, not part
  of `src/`) is modelled from the spec as an event log with a deterministic
  squeeze function.
-/

namespace IPP

/-- Number of bytes in a serialized scalar (`mpc_stark::algebra::scalar::SCALAR_BYTES`). -/
def SCALAR_BYTES : Nat := 32

/-- Number of bytes in a serialized curve point (`mpc_stark::algebra::stark_curve::STARK_POINT_BYTES`). -/
def STARK_POINT_BYTES : Nat := 32

/-- Order of the Stark curve group (also the modulus of its scalar field). -/
def qScalar : Nat := 3618502788666131213697322783095070105526743751716087489154079457884512865583

instance : NeZero qScalar := ⟨by decide⟩

/-- Scalar field element (`mpc_stark::algebra::scalar::Scalar`). -/
abbrev Scalar : Type := ZMod qScalar

/-- Curve point, modelled from the spec: the external group is a prime-order
group of order `q`, hence isomorphic to the additive cyclic group `ZMod q`;
scalar multiplication corresponds to ring multiplication in this model. -/
abbrev StarkPoint : Type := ZMod qScalar

/-- Error type of the crate (`crate::errors::ProofError`), restricted to the
two variants raised by this file. -/
inductive ProofError where
  | VerificationError
  | FormatError
deriving DecidableEq

/-- Rust `Result<A, ProofError>`. -/
inductive PResult (α : Type) where
  | ok (val : α)
  | err (e : ProofError)
deriving DecidableEq

/-- Big-endian byte encoding of a natural number into exactly `len` bytes
(most significant first); used to model the fixed-width encodings of the
external curve library. -/
def toBEBytes : Nat → Nat → List Nat
  | 0, _ => []
  | len + 1, v => toBEBytes len (v / 256) ++ [v % 256]

/-- Big-endian interpretation of a byte string as a natural number. -/
def fromBEBytes (l : List Nat) : Nat :=
  l.foldl (fun a b => a * 256 + b) 0

/-- Serialization of a scalar (`Scalar::to_bytes_be`, external): canonical
big-endian 32-byte encoding. Modelled from the spec. -/
def scalarToBytesBe (s : Scalar) : List Nat :=
  toBEBytes SCALAR_BYTES s.val

/-- Deserialization of a scalar with modular reduction
(`Scalar::from_be_bytes_mod_order`, external): interpret big-endian and reduce
mod `q`; accepts any length. Modelled from the spec. -/
def scalarFromBeBytesModOrder (l : List Nat) : Scalar :=
  ((fromBEBytes l : Nat) : ZMod qScalar)

/-- Serialization of a point (`StarkPoint::to_bytes`, external): a fixed
32-byte encoding. Modelled from the spec. -/
def pointToBytes (P : StarkPoint) : List Nat :=
  toBEBytes STARK_POINT_BYTES P.val

/-- Deserialization of a point (`StarkPoint::from_bytes`, external): rejects
byte strings that are not valid encodings. Modelled from the spec: valid
encodings are exactly the 32-byte big-endian encodings of values below `q`. -/
def pointFromBytes (l : List Nat) : Option StarkPoint :=
  if l.length = STARK_POINT_BYTES ∧ fromBEBytes l < qScalar then
    some ((fromBEBytes l : Nat) : ZMod qScalar)
  else none

/-- Field inversion (`Scalar::inverse`, external), modelled from the spec via
Fermat exponentiation `a ^ (q - 2)` with a structurally recursive
square-and-multiply. No correctness property of this definition is assumed
anywhere: theorems that need invertibility carry `u * scInv u = 1` as a
hypothesis. -/
def sqMulAux : Nat → Scalar → Nat → Scalar
  | 0, _, _ => 1
  | fuel + 1, b, e =>
    if e = 0 then 1
    else
      let r := sqMulAux fuel (b * b) (e / 2)
      if e % 2 = 1 then b * r else r

/-- Field inversion of a scalar; see `sqMulAux`. -/
def scInv (a : Scalar) : Scalar := sqMulAux (qScalar - 2) a (qScalar - 2)

/-- Multi-scalar multiplication (`StarkPoint::msm` / `msm_iter`, external):
`Σ sᵢ · Pᵢ`, zipping the two streams (the shorter stream truncates, as with
Rust iterator `zip`). Modelled from the spec. -/
def msmList (ss : List Scalar) (ps : List StarkPoint) : StarkPoint :=
  ((ss.zip ps).map fun x => x.1 * x.2).sum

/-- Transcript event: the external Fiat-Shamir transcript absorbs a domain
separator (with the vector length `n`), labeled point encodings, and records
challenge squeezes (a duplex squeeze also changes the state). Labels are
modelled as ASCII codes. -/
inductive TEvent where
  | domainSep (n : Nat)
  | point (label : Nat) (bytes : List Nat)
  | challenge (label : Nat)
deriving DecidableEq

/-- Transcript state, modelled from the spec as the log of absorbed events. -/
abbrev Transcript : Type := List TEvent

/-- ASCII label of the transcript message holding the left commitment. -/
def labelL : Nat := 76

/-- ASCII label of the transcript message holding the right commitment. -/
def labelR : Nat := 82

/-- ASCII label of the per-round challenge. -/
def labelU : Nat := 117

/-- Numeric code of an event, input to the modelled squeeze function. -/
def eventCode : TEvent → Nat
  | .domainSep n => 3 + n
  | .point label bytes => 5 + label + fromBEBytes bytes
  | .challenge label => 7 + label

/-- Modelled from the spec: the transcript squeeze is some fixed deterministic
function of the absorbed history; any such function is a faithful model of the
duplex hash, since no claim depends on the hash itself. -/
def tHash (t : Transcript) : Scalar :=
  ((t.foldl (fun a e => a * 2 ^ 64 + eventCode e) 1 : Nat) : ZMod qScalar)

/-- `transcript.innerproduct_domain_sep(n)` (crate `transcript.rs`, not under
`src/`). Modelled from the spec: absorbs the protocol label together with `n`. -/
def innerproductDomainSep (t : Transcript) (n : Nat) : Transcript :=
  t ++ [.domainSep n]

/-- `transcript.append_point(label, P)`. Modelled from the spec: absorbs the
tagged point bytes. -/
def appendPoint (t : Transcript) (label : Nat) (P : StarkPoint) : Transcript :=
  t ++ [.point label (pointToBytes P)]

/-- `transcript.challenge_scalar(label)`. Modelled from the spec: squeezes a
field element and advances the state. -/
def challengeScalar (t : Transcript) (label : Nat) : Scalar × Transcript :=
  (tHash (t ++ [.challenge label]), t ++ [.challenge label])

/-- `transcript.validate_and_append_point(label, P)` (crate `transcript.rs`,
not under `src/`). Modelled from the spec: fails with `VerificationError` on
the one degenerate group element (the identity), following the upstream
transcript protocol; on failure the transcript is untouched. -/
def validateAndAppendPoint (t : Transcript) (label : Nat) (P : StarkPoint) :
    PResult Transcript :=
  if P = 0 then .err .VerificationError
  else .ok (appendPoint t label P)

/-- The proof object (`struct InnerProductProof`). -/
structure InnerProductProof where
  L_vec : List StarkPoint
  R_vec : List StarkPoint
  a : Scalar
  b : Scalar
deriving DecidableEq

/-- Threshold above which the source folds in parallel (`PARALLELISM_THRESHOLD`). -/
def PARALLELISM_THRESHOLD : Nat := 10

/-- `inner_product(a, b)`: `Σ aᵢ·bᵢ`. The source panics when the lengths
differ (programmer error); all call sites in this file satisfy the equal
length precondition, under which the zip below is exact. -/
def inner_product (a b : List Scalar) : Scalar :=
  ((a.zip b).map fun x => x.1 * x.2).sum

/-- `InnerProductProof::fold_witness`: halves the witness. The serial branch
builds the four vectors by indexed pushes; the parallel branch maps an indexed
quadruple and unzips (rayon parallelism is a scheduling concern with no
observable effect, so the parallel iterator is modelled as a map). Out-of-range
indexing (impossible under the equal-length precondition) is modelled by
`getD` with default values where the source would panic. -/
def fold_witness (u u_inv : Scalar) (a_L a_R b_L b_R : List Scalar)
    (G_L G_R H_L H_R : List StarkPoint) :
    List Scalar × List Scalar × List StarkPoint × List StarkPoint :=
  let n := a_L.length
  if n < PARALLELISM_THRESHOLD then
    ( (List.range n).map fun i => a_L.getD i 0 * u + u_inv * a_R.getD i 0,
      (List.range n).map fun i => b_L.getD i 0 * u_inv + u * b_R.getD i 0,
      (List.range n).map fun i =>
        msmList [u_inv, u] [G_L.getD i 0, G_R.getD i 0],
      (List.range n).map fun i =>
        msmList [u, u_inv] [H_L.getD i 0, H_R.getD i 0] )
  else
    let res := (List.range n).map fun i =>
      ( a_L.getD i 0 * u + u_inv * a_R.getD i 0,
        b_L.getD i 0 * u_inv + u * b_R.getD i 0,
        msmList [u_inv, u] [G_L.getD i 0, G_R.getD i 0],
        msmList [u, u_inv] [H_L.getD i 0, H_R.getD i 0] )
    (res.map fun x => x.1, res.map fun x => x.2.1,
     res.map fun x => x.2.2.1, res.map fun x => x.2.2.2)

/-- Structurally recursive floor logarithm base 2 (fuel-based). On every
argument this equals `⌊log₂ i⌋` (and `0` at `0`); it models the source
expression `31 - (i as u32).leading_zeros()`, which equals `⌊log₂ i⌋` for all
`1 ≤ i < 2^32`, the only range in which the source evaluates it. -/
def floorLgAux : Nat → Nat → Nat
  | 0, _ => 0
  | fuel + 1, i => if i ≤ 1 then 0 else floorLgAux fuel (i / 2) + 1

/-- Floor logarithm base 2; see `floorLgAux`. -/
def floorLg (i : Nat) : Nat := floorLgAux i i

/-- One iteration of the `s`-vector loop of `verification_scalars` (step 4):
with `i` the current length, pushes `s[i - 2^⌊log₂ i⌋] * u_sq[(lg_n-1) - ⌊log₂ i⌋]`. -/
def sStep (challenges_sq : List Scalar) (lg_n : Nat) (acc : List Scalar) :
    List Scalar :=
  let i := acc.length
  let lg_i := floorLg i
  let k := 2 ^ lg_i
  acc ++ [acc.getD (i - k) 0 * challenges_sq.getD (lg_n - 1 - lg_i) 0]

/-- The `s`-vector loop, iterated `m` times (the source runs `i` from `1`
to `n-1`, so `m = n - 1` starting from `[allinv]`). -/
def sLoop (challenges_sq : List Scalar) (lg_n : Nat) :
    Nat → List Scalar → List Scalar
  | 0, acc => acc
  | m + 1, acc => sLoop challenges_sq lg_n m (sStep challenges_sq lg_n acc)

/-- Round loop of `verification_scalars` (step 1): validate-and-absorb each
`L`, `R` pair, squeezing one challenge per round. Mirrors the `?`-propagation
of the source: on a validation failure the error is returned with the
transcript as mutated so far (the failing point is not absorbed). -/
def roundsLoop : List (StarkPoint × StarkPoint) → Transcript →
    PResult (List Scalar) × Transcript
  | [], t => (.ok [], t)
  | (L, R) :: rest, t =>
    match validateAndAppendPoint t labelL L with
    | .err e => (.err e, t)
    | .ok t1 =>
      match validateAndAppendPoint t1 labelR R with
      | .err e => (.err e, t1)
      | .ok t2 =>
        let c := challengeScalar t2 labelU
        match roundsLoop rest c.2 with
        | (.err e, t4) => (.err e, t4)
        | (.ok us, t4) => (.ok (c.1 :: us), t4)

/-- `InnerProductProof::verification_scalars`. The `&mut Transcript` is
modelled by returning the final transcript state next to the result. The
external `Scalar::batch_inverse` is modelled from the spec as elementwise
inversion. `1 << lg_n` equals `2 ^ lg_n` (no overflow: `lg_n < 32`). -/
def verification_scalars (p : InnerProductProof) (n : Nat) (t : Transcript) :
    PResult (List Scalar × List Scalar × List Scalar) × Transcript :=
  let lg_n := p.L_vec.length
  if 32 ≤ lg_n then (.err .VerificationError, t)
  else if n ≠ 2 ^ lg_n then (.err .VerificationError, t)
  else
    match roundsLoop (p.L_vec.zip p.R_vec) (innerproductDomainSep t n) with
    | (.err e, t2) => (.err e, t2)
    | (.ok challenges, t2) =>
      let challenges_inv := challenges.map scInv
      let allinv := challenges_inv.prod
      let challenges_sq := challenges.map fun c => c * c
      let challenges_inv_sq := challenges_inv.map fun c => c * c
      let s := sLoop challenges_sq lg_n (n - 1) [allinv]
      (.ok (challenges_sq, challenges_inv_sq, s), t2)

/-- `InnerProductProof::verify`: recomputes the expected commitment by one
combined MSM and compares with `P`. -/
def verify (p : InnerProductProof) (n : Nat) (t : Transcript)
    (G_factors H_factors : List Scalar) (P Q : StarkPoint)
    (G H : List StarkPoint) : PResult Unit × Transcript :=
  match verification_scalars p n t with
  | (.err e, t2) => (.err e, t2)
  | (.ok (u_sq, u_inv_sq, s), t2) =>
    let g_times_a_times_s :=
      (((G_factors.zip s).map fun x => (p.a * x.2) * x.1).take G.length)
    let inv_s := s.reverse
    let h_times_b_div_s := (H_factors.zip inv_s).map fun x => (p.b * x.2) * x.1
    let neg_u_sq := u_sq.map fun u => -u
    let neg_u_inv_sq := u_inv_sq.map fun u => -u
    let expect_P := msmList
      ([p.a * p.b] ++ g_times_a_times_s ++ h_times_b_div_s ++ neg_u_sq ++
        neg_u_inv_sq)
      ([Q] ++ G ++ H ++ p.L_vec ++ p.R_vec)
    if expect_P = P then (.ok (), t2) else (.err .VerificationError, t2)

/-- `InnerProductProof::serialized_size`. -/
def serialized_size (p : InnerProductProof) : Nat :=
  p.L_vec.length * 2 * STARK_POINT_BYTES + 2 * SCALAR_BYTES

/-- `InnerProductProof::to_bytes`: `L_0‖R_0‖…‖L_{k-1}‖R_{k-1}‖a‖b`. -/
def to_bytes (p : InnerProductProof) : List Nat :=
  ((p.L_vec.zip p.R_vec).map fun x =>
      pointToBytes x.1 ++ pointToBytes x.2).flatten ++
    scalarToBytesBe p.a ++ scalarToBytesBe p.b

/-- Wrapping `usize` subtraction (release-mode Rust semantics), for a
subtrahend at most `2^64`; arguments are `usize`, hence below `2^64`. -/
def wsub64 (a b : Nat) : Nat := (a + 2 ^ 64 - b) % 2 ^ 64

/-- Point-decoding loop of `from_bytes`: decodes `count` pairs starting at
pair index `i` (byte position `2*i*STARK_POINT_BYTES`), failing with
`FormatError` at the first invalid encoding. -/
def pointsFrom (slice : List Nat) : Nat → Nat →
    PResult (List StarkPoint × List StarkPoint)
  | _, 0 => .ok ([], [])
  | i, count + 1 =>
    let pos := 2 * i * STARK_POINT_BYTES
    match pointFromBytes ((slice.drop pos).take STARK_POINT_BYTES) with
    | none => .err .FormatError
    | some l =>
      match pointFromBytes
          ((slice.drop (pos + STARK_POINT_BYTES)).take STARK_POINT_BYTES) with
      | none => .err .FormatError
      | some r =>
        match pointsFrom slice (i + 1) count with
        | .err e => .err e
        | .ok x => .ok (l :: x.1, r :: x.2)

/-- `InnerProductProof::from_bytes`. The source computes
`(b - 2*SCALAR_BYTES) / STARK_POINT_BYTES` on `usize`, which wraps when the
slice is shorter than `2*SCALAR_BYTES` (release semantics), modelled by
`wsub64`. Slice ranges `slice[x..y]` are modelled with `drop`/`take`; every
range taken is in bounds whenever reached. -/
def from_bytes (slice : List Nat) : PResult InnerProductProof :=
  let b := slice.length
  let num_points := wsub64 b (2 * SCALAR_BYTES) / STARK_POINT_BYTES
  let num_elements := num_points + 2
  if num_elements < 2 then .err .FormatError
  else if (num_elements - 2) % 2 ≠ 0 then .err .FormatError
  else
    let lg_n := (num_elements - 2) / 2
    if 32 ≤ lg_n then .err .FormatError
    else
      match pointsFrom slice 0 lg_n with
      | .err e => .err e
      | .ok x =>
        let pos := 2 * lg_n * STARK_POINT_BYTES
        let a := scalarFromBeBytesModOrder ((slice.drop pos).take SCALAR_BYTES)
        let b := scalarFromBeBytesModOrder (slice.drop (pos + SCALAR_BYTES))
        .ok ⟨x.1, x.2, a, b⟩

/-- One round of the prover loop of `create` (the `while n != 1` loop, in
which the `G_factors`/`H_factors` weights are already folded into the bases).
`n` mirrors the source's mutable local; the source loops while `n != 1` and
`n` is always a positive power of two here, so `n ≤ 1` terminates the
recursion. -/
def createLoop (Q : StarkPoint) : Nat → Transcript → List Scalar →
    List Scalar → List StarkPoint → List StarkPoint → List StarkPoint →
    List StarkPoint → InnerProductProof × Transcript
  | n, t, a, b, G, H, Lacc, Racc =>
    if n ≤ 1 then
      (⟨Lacc, Racc, a.getD 0 0, b.getD 0 0⟩, t)
    else
      let m := n / 2
      let a_L := a.take m
      let a_R := a.drop m
      let b_L := b.take m
      let b_R := b.drop m
      let G_L := G.take m
      let G_R := G.drop m
      let H_L := H.take m
      let H_R := H.drop m
      let c_L := inner_product a_L b_R
      let c_R := inner_product a_R b_L
      let L := msmList (a_L ++ b_R ++ [c_L]) (G_R ++ H_L ++ [Q])
      let R := msmList (a_R ++ b_L ++ [c_R]) (G_L ++ H_R ++ [Q])
      let t1 := appendPoint (appendPoint t labelL L) labelR R
      let c := challengeScalar t1 labelU
      let u := c.1
      let u_inv := scInv u
      let f := fold_witness u u_inv a_L a_R b_L b_R G_L G_R H_L H_R
      createLoop Q m c.2 f.1 f.2.1 f.2.2.1 f.2.2.2 (Lacc ++ [L]) (Racc ++ [R])
  termination_by n => n
  decreasing_by exact Nat.div_lt_self (by omega) (by omega)

/-- `InnerProductProof::create`. The source asserts that all six input
lengths equal `n = |G_vec|` and that `n` is a power of two (`n = 0` fails
Rust's `is_power_of_two`); assertion failure (panic) is modelled as `none`.
The condition `2 ^ floorLg n = n` holds exactly when `n` is a positive power
of two. The first round is the specialized one that folds the
`G_factors`/`H_factors` weights into the `L`/`R` MSMs and then materializes
the weighted bases before folding. -/
def create (t : Transcript) (Q : StarkPoint) (G_factors H_factors : List Scalar)
    (G_vec H_vec : List StarkPoint) (a_vec b_vec : List Scalar) :
    Option (InnerProductProof × Transcript) :=
  let n := G_vec.length
  if H_vec.length = n ∧ a_vec.length = n ∧ b_vec.length = n ∧
      G_factors.length = n ∧ H_factors.length = n ∧ 2 ^ floorLg n = n then
    let t0 := innerproductDomainSep t n
    if n = 1 then
      some (⟨[], [], a_vec.getD 0 0, b_vec.getD 0 0⟩, t0)
    else
      let m := n / 2
      let a_L := a_vec.take m
      let a_R := a_vec.drop m
      let b_L := b_vec.take m
      let b_R := b_vec.drop m
      let G_L := G_vec.take m
      let G_R := G_vec.drop m
      let H_L := H_vec.take m
      let H_R := H_vec.drop m
      let c_L := inner_product a_L b_R
      let c_R := inner_product a_R b_L
      let L := msmList
        ((List.zipWith (fun x g => x * g) a_L ((G_factors.drop m).take m)) ++
          (List.zipWith (fun x h => x * h) b_R (H_factors.take m)) ++ [c_L])
        (G_R ++ H_L ++ [Q])
      let R := msmList
        ((List.zipWith (fun x g => x * g) a_R (G_factors.take m)) ++
          (List.zipWith (fun x h => x * h) b_L ((H_factors.drop m).take m)) ++
          [c_R])
        (G_L ++ H_R ++ [Q])
      let t1 := appendPoint (appendPoint t0 labelL L) labelR R
      let c := challengeScalar t1 labelU
      let u := c.1
      let u_inv := scInv u
      let Gw := List.zipWith (fun g Gi => g * Gi) G_factors G_vec
      let Hw := List.zipWith (fun h Hi => h * Hi) H_factors H_vec
      let f := fold_witness u u_inv a_L a_R b_L b_R
        (Gw.take m) (Gw.drop m) (Hw.take m) (Hw.drop m)
      some (createLoop Q m c.2 f.1 f.2.1 f.2.2.1 f.2.2.2 [L] [R])
  else none

/-- Challenge list recomputed by the verifier for a given proof, length and
initial transcript: the result of the round loop when it succeeds (used to
state properties of `verification_scalars`). -/
def ipChallenges (p : InnerProductProof) (n : Nat) (t : Transcript) :
    List Scalar :=
  match roundsLoop (p.L_vec.zip p.R_vec) (innerproductDomainSep t n) with
  | (.ok cs, _) => cs
  | (.err _, _) => []

/-- The specified value of the verifier scalar `s_i`: the product
`Π_{j=0..k-1} u_{k-j}^{e_j}` where the challenge list `cs` is in creation
order (`cs[j] = u_{k-j}`), and `e_j = +1` when bit `j` of `i` (counted from
the most significant of `k` bits, i.e. the coefficient of `2^{k-1-j}`) is set,
`e_j = -1` otherwise. -/
def sSpec (cs : List Scalar) (k i : Nat) : Scalar :=
  ∏ j ∈ Finset.range k,
    if Nat.testBit i (k - 1 - j) then cs.getD j 0 else scInv (cs.getD j 0)

/-- Transcript events of one fully absorbed verifier round for an `L`, `R`
pair: both points appended, then one challenge squeezed. -/
def roundAbsorb (pr : StarkPoint × StarkPoint) : List TEvent :=
  [.point labelL (pointToBytes pr.1), .point labelR (pointToBytes pr.2),
   .challenge labelU]

end IPP

namespace IPP

set_option maxRecDepth 100000

/-! ### Basic byte-encoding lemmas -/

theorem length_toBEBytes (len v : Nat) : (toBEBytes len v).length = len := by
  induction len generalizing v with
  | zero => rfl
  | succ n ih => simp [toBEBytes, ih]

theorem fromBEBytes_toBEBytes (len v : Nat) :
    fromBEBytes (toBEBytes len v) = v % 256 ^ len := by
  induction len generalizing v with
  | zero => simp [toBEBytes, fromBEBytes, Nat.mod_one]
  | succ n ih =>
    unfold toBEBytes
    unfold fromBEBytes at ih ⊢
    rw [List.foldl_append, ih]
    simp only [List.foldl_cons, List.foldl_nil]
    rw [pow_succ']
    rw [Nat.mod_mul]
    omega

theorem qScalar_lt : qScalar < 256 ^ STARK_POINT_BYTES := by decide

theorem qScalar_lt' : qScalar < 256 ^ SCALAR_BYTES := by decide

theorem length_pointToBytes (P : StarkPoint) :
    (pointToBytes P).length = STARK_POINT_BYTES :=
  length_toBEBytes _ _

theorem length_scalarToBytesBe (a : Scalar) :
    (scalarToBytesBe a).length = SCALAR_BYTES :=
  length_toBEBytes _ _

theorem fromBEBytes_pointToBytes (P : StarkPoint) :
    fromBEBytes (pointToBytes P) = P.val := by
  rw [pointToBytes, fromBEBytes_toBEBytes]
  exact Nat.mod_eq_of_lt (lt_trans (ZMod.val_lt P) qScalar_lt)

theorem pointFromBytes_pointToBytes (P : StarkPoint) :
    pointFromBytes (pointToBytes P) = some P := by
  rw [pointFromBytes, if_pos]
  · rw [fromBEBytes_pointToBytes]
    exact congrArg some (ZMod.natCast_rightInverse P)
  · exact ⟨length_pointToBytes P, by rw [fromBEBytes_pointToBytes]; exact ZMod.val_lt P⟩

theorem scalarFromBe_scalarToBe (a : Scalar) :
    scalarFromBeBytesModOrder (scalarToBytesBe a) = a := by
  rw [scalarFromBeBytesModOrder, scalarToBytesBe, fromBEBytes_toBEBytes,
    Nat.mod_eq_of_lt (lt_trans (ZMod.val_lt a) qScalar_lt')]
  exact ZMod.natCast_rightInverse a

/-! ### getD helpers -/

theorem getD_of_lt (l : List α) (d : α) {i : Nat} (h : i < l.length) :
    l.getD i d = l[i] := by
  simp [List.getD_eq_getElem?_getD, List.getElem?_eq_getElem h]

theorem getD_map_of_lt (f : α → β) (l : List α) (d : α) (e : β) {i : Nat}
    (h : i < l.length) : (l.map f).getD i e = f (l.getD i d) := by
  rw [getD_of_lt _ _ (by simpa using h), getD_of_lt _ _ h, List.getElem_map]

theorem getD_zip_of_lt (l₁ : List α) (l₂ : List β) (d₁ : α) (d₂ : β) {i : Nat}
    (h₁ : i < l₁.length) (h₂ : i < l₂.length) :
    (l₁.zip l₂).getD i (d₁, d₂) = (l₁.getD i d₁, l₂.getD i d₂) := by
  rw [getD_of_lt _ _ (by simp [List.length_zip]; omega),
    getD_of_lt _ _ h₁, getD_of_lt _ _ h₂]
  simp [List.getElem_zip]

theorem getD_append_of_lt (l₁ l₂ : List α) (d : α) {i : Nat}
    (h : i < l₁.length) : (l₁ ++ l₂).getD i d = l₁.getD i d := by
  rw [getD_of_lt _ _ (by simp; omega), getD_of_lt _ _ h,
    List.getElem_append_left h]

theorem getD_take_of_lt (l : List α) (d : α) {i m : Nat} (h : i < m)
    (h₂ : i < l.length) : (l.take m).getD i d = l.getD i d := by
  rw [getD_of_lt _ _ (by simp; omega), getD_of_lt _ _ h₂]
  simp [List.getElem_take]

theorem getD_reverse_of_lt (l : List α) (d : α) {i : Nat} (h : i < l.length) :
    l.reverse.getD i d = l.getD (l.length - 1 - i) d := by
  rw [getD_of_lt _ _ (by simpa using h), getD_of_lt _ _ (by omega),
    List.getElem_reverse]

/-! ### Sum and product conversions -/

theorem list_sum_eq_range (l : List Scalar) :
    l.sum = ∑ i ∈ Finset.range l.length, l.getD i 0 := by
  induction l with
  | nil => simp
  | cons x xs ih =>
    rw [List.sum_cons, List.length_cons, Finset.sum_range_succ', ih]
    simp [List.getD]
    exact add_comm _ _

theorem list_prod_eq_range (l : List Scalar) :
    l.prod = ∏ i ∈ Finset.range l.length, l.getD i 1 := by
  induction l with
  | nil => simp
  | cons x xs ih =>
    rw [List.prod_cons, List.length_cons, Finset.prod_range_succ', ih]
    simp [List.getD]
    exact mul_comm _ _

theorem msmList_eq_sum (ss : List Scalar) (ps : List StarkPoint)
    (h : ss.length = ps.length) :
    msmList ss ps = ∑ i ∈ Finset.range ss.length, ss.getD i 0 * ps.getD i 0 := by
  rw [msmList, list_sum_eq_range]
  have hz : (((ss.zip ps).map fun x => x.1 * x.2)).length = ss.length := by
    simp [List.length_zip]; omega
  rw [hz]
  refine Finset.sum_congr rfl fun i hi => ?_
  have hi' : i < ss.length := Finset.mem_range.mp hi
  rw [getD_map_of_lt _ _ (0, 0) _ (by simp [List.length_zip]; omega),
    getD_zip_of_lt _ _ _ _ hi' (by omega)]

theorem msmList_append (s₁ s₂ : List Scalar) (p₁ p₂ : List StarkPoint)
    (h : s₁.length = p₁.length) :
    msmList (s₁ ++ s₂) (p₁ ++ p₂) = msmList s₁ p₁ + msmList s₂ p₂ := by
  rw [msmList, msmList, msmList, List.zip_append h, List.map_append,
    List.sum_append]

theorem msmList_single (x : Scalar) (P : StarkPoint) :
    msmList [x] [P] = x * P := by
  simp [msmList]

/-! ### floorLg -/

theorem floorLgAux_eq_log (fuel i : Nat) (h : i ≤ fuel) :
    floorLgAux fuel i = Nat.log 2 i := by
  induction fuel generalizing i with
  | zero =>
    have : i = 0 := by omega
    subst this
    simp [floorLgAux]
  | succ fuel ih =>
    by_cases h1 : i ≤ 1
    · rw [floorLgAux, if_pos h1]
      interval_cases i <;> simp
    · rw [floorLgAux, if_neg h1, ih (i / 2) (by omega), Nat.log_div_base]
      have : 0 < Nat.log 2 i := Nat.log_pos (by norm_num) (by omega)
      omega

theorem floorLg_eq_log (i : Nat) : floorLg i = Nat.log 2 i :=
  floorLgAux_eq_log i i le_rfl

theorem floorLg_pow (k : Nat) : floorLg (2 ^ k) = k := by
  rw [floorLg_eq_log, Nat.log_pow (by norm_num)]

theorem pow_floorLg_eq_iff (n : Nat) :
    2 ^ floorLg n = n ↔ (0 < n ∧ ∃ k, n = 2 ^ k) := by
  constructor
  · intro h
    exact ⟨by rw [← h]; positivity, floorLg n, h.symm⟩
  · rintro ⟨-, k, rfl⟩
    rw [floorLg_pow]


theorem getD_append_back (l : List α) (x : α) (d : α) :
    (l ++ [x]).getD l.length d = x := by
  rw [getD_of_lt _ _ (by simp)]
  simp

/-! ### The s-vector loop -/

theorem sStep_length (csq : List Scalar) (lgn : Nat) (acc : List Scalar) :
    (sStep csq lgn acc).length = acc.length + 1 := by
  simp [sStep]

theorem sLoop_length (csq : List Scalar) (lgn m : Nat) :
    ∀ acc, (sLoop csq lgn m acc).length = acc.length + m := by
  induction m with
  | zero => intro acc; rfl
  | succ m ih =>
    intro acc
    rw [sLoop, ih, sStep_length]
    omega

theorem sLoop_extends (csq : List Scalar) (lgn m : Nat) :
    ∀ acc, ∃ r, sLoop csq lgn m acc = acc ++ r := by
  induction m with
  | zero => intro acc; exact ⟨[], by simp [sLoop]⟩
  | succ m ih =>
    intro acc
    obtain ⟨r, hr⟩ := ih (sStep csq lgn acc)
    refine ⟨[acc.getD (acc.length - 2 ^ floorLg acc.length) 0 *
      csq.getD (lgn - 1 - floorLg acc.length) 0] ++ r, ?_⟩
    rw [sLoop, hr, sStep]
    simp

theorem sLoop_rec (csq : List Scalar) (lgn m : Nat) :
    ∀ acc, 0 < acc.length → ∀ j, acc.length ≤ j → j < acc.length + m →
      (sLoop csq lgn m acc).getD j 0 =
        (sLoop csq lgn m acc).getD (j - 2 ^ floorLg j) 0 *
          csq.getD (lgn - 1 - floorLg j) 0 := by
  induction m with
  | zero => intro acc _ j h1 h2; omega
  | succ m ih =>
    intro acc hpos j h1 h2
    rw [sLoop]
    rcases Nat.eq_or_lt_of_le h1 with hj | hj
    · -- j is exactly the index being pushed by this step
      obtain ⟨r, hr⟩ := sLoop_extends csq lgn m (sStep csq lgn acc)
      have hstep : sStep csq lgn acc =
          acc ++ [acc.getD (acc.length - 2 ^ floorLg acc.length) 0 *
            csq.getD (lgn - 1 - floorLg acc.length) 0] := rfl
      have hjlt : j < (sStep csq lgn acc).length := by
        rw [sStep_length]; omega
      have hval : (sLoop csq lgn m (sStep csq lgn acc)).getD j 0 =
          acc.getD (acc.length - 2 ^ floorLg acc.length) 0 *
            csq.getD (lgn - 1 - floorLg acc.length) 0 := by
        rw [hr, getD_append_of_lt _ _ _ hjlt, hstep, ← hj, getD_append_back]
      have hsub : j - 2 ^ floorLg j < acc.length := by
        have h1' : 1 ≤ j := by omega
        have := Nat.one_le_two_pow (n := floorLg j)
        omega
      have hprev : (sLoop csq lgn m (sStep csq lgn acc)).getD
          (j - 2 ^ floorLg j) 0 = acc.getD (j - 2 ^ floorLg j) 0 := by
        rw [hr, hstep]
        rw [List.append_assoc]
        exact getD_append_of_lt _ _ _ hsub
      rw [hval, hprev, ← hj]
    · -- j lies strictly beyond this step: use the inductive hypothesis
      exact ih (sStep csq lgn acc) (by rw [sStep_length]; omega) j
        (by rw [sStep_length]; omega) (by rw [sStep_length]; omega)

theorem sLoop_first (csq : List Scalar) (lgn m : Nat) (a0 : Scalar) :
    (sLoop csq lgn m [a0]).getD 0 0 = a0 := by
  obtain ⟨r, hr⟩ := sLoop_extends csq lgn m [a0]
  rw [hr]
  rfl

/-! ### The verifier round loop -/

theorem roundsLoop_ok_length (pairs : List (StarkPoint × StarkPoint)) :
    ∀ t cs t2, roundsLoop pairs t = (.ok cs, t2) → cs.length = pairs.length := by
  induction pairs with
  | nil =>
    intro t cs t2 h
    rw [roundsLoop] at h
    cases h
    rfl
  | cons pr rest ih =>
    intro t cs t2 h
    obtain ⟨L, R⟩ := pr
    cases h1 : validateAndAppendPoint t labelL L with
    | err e => simp [roundsLoop, h1] at h
    | ok t1 =>
      cases h2 : validateAndAppendPoint t1 labelR R with
      | err e => simp [roundsLoop, h1, h2] at h
      | ok tt =>
        cases h3 : roundsLoop rest (challengeScalar tt labelU).2 with
        | mk res t4 =>
          cases res with
          | err e => simp [roundsLoop, h1, h2, h3] at h
          | ok us =>
            simp only [roundsLoop, h1, h2, h3] at h
            obtain ⟨h4, -⟩ := Prod.mk.injEq .. ▸ h
            cases h4
            simp [ih _ _ _ h3]

theorem roundsLoop_err_char (pairs : List (StarkPoint × StarkPoint)) :
    ∀ t0 e t2, roundsLoop pairs t0 = (.err e, t2) →
      e = .VerificationError ∧
      ∃ i, i < pairs.length ∧
        (∀ j < i, (pairs.getD j (0, 0)).1 ≠ 0 ∧ (pairs.getD j (0, 0)).2 ≠ 0) ∧
        (((pairs.getD i (0, 0)).1 = 0 ∧
            t2 = t0 ++ ((pairs.take i).map roundAbsorb).flatten) ∨
         ((pairs.getD i (0, 0)).1 ≠ 0 ∧ (pairs.getD i (0, 0)).2 = 0 ∧
            t2 = t0 ++ ((pairs.take i).map roundAbsorb).flatten ++
              [.point labelL (pointToBytes (pairs.getD i (0, 0)).1)])) := by
  induction pairs with
  | nil =>
    intro t0 e t2 h
    simp [roundsLoop] at h
  | cons pr rest ih =>
    intro t0 e t2 h
    obtain ⟨L, R⟩ := pr
    by_cases hL : L = 0
    · simp only [roundsLoop, validateAndAppendPoint, if_pos hL,
        Prod.mk.injEq, PResult.err.injEq] at h
      obtain ⟨he, ht⟩ := h
      refine ⟨he.symm, 0, by simp, fun j hj => absurd hj (by omega),
        Or.inl ⟨by simpa using hL, by simp [ht.symm]⟩⟩
    · by_cases hR : R = 0
      · simp only [roundsLoop, validateAndAppendPoint, if_neg hL, if_pos hR,
          Prod.mk.injEq, PResult.err.injEq] at h
        obtain ⟨he, ht⟩ := h
        refine ⟨he.symm, 0, by simp, fun j hj => absurd hj (by omega),
          Or.inr ⟨by simpa using hL, by simpa using hR, ?_⟩⟩
        simp [ht.symm, appendPoint]
      · simp only [roundsLoop, validateAndAppendPoint, if_neg hL, if_neg hR] at h
        cases h3 : roundsLoop rest
            (challengeScalar (appendPoint (appendPoint t0 labelL L) labelR R)
              labelU).2 with
        | mk res t4 =>
          cases res with
          | ok us => rw [h3] at h; simp at h
          | err e2 =>
            rw [h3] at h
            simp only [Prod.mk.injEq, PResult.err.injEq] at h
            obtain ⟨he, ht⟩ := h
            obtain ⟨hee, i, hi, hpre, hcase⟩ := ih _ _ _ h3
            have ht3e : (challengeScalar
                (appendPoint (appendPoint t0 labelL L) labelR R) labelU).2 =
                t0 ++ roundAbsorb (L, R) := by
              simp [challengeScalar, appendPoint, roundAbsorb]
            rw [ht3e] at hcase
            refine ⟨by rw [← he, hee], i + 1, by simpa using Nat.succ_lt_succ hi,
              ?_, ?_⟩
            · intro j hj
              match j with
              | 0 => exact ⟨by simpa using hL, by simpa using hR⟩
              | j + 1 =>
                have := hpre j (by omega)
                simpa using this
            · have hflat : ((((L, R) :: rest).take (i + 1)).map
                  roundAbsorb).flatten =
                  roundAbsorb (L, R) ++
                    ((rest.take i).map roundAbsorb).flatten := by
                simp
              rcases hcase with ⟨hz, htr⟩ | ⟨hnz, hz, htr⟩
              · refine Or.inl ⟨by simpa using hz, ?_⟩
                rw [← ht, htr, hflat, List.append_assoc]
              · refine Or.inr ⟨by simpa using hnz, by simpa using hz, ?_⟩
                rw [← ht, htr, hflat]
                simp [List.append_assoc]

/-! ### Characterization of the s vector as a signed challenge product -/

theorem testBit_shift_eq {lg b : Nat} (x : Nat) (hx : x < 2 ^ lg) (hb : b ≠ lg) :
    Nat.testBit (2 ^ lg + x) b = Nat.testBit x b := by
  rcases Nat.lt_or_ge b lg with hlt | hge
  · exact Nat.testBit_two_pow_add_gt hlt x
  · have hgt : lg < b := by omega
    have h1 : 2 ^ lg + x < 2 ^ b := by
      have : 2 ^ (lg + 1) ≤ 2 ^ b := Nat.pow_le_pow_right (by norm_num) (by omega)
      have := Nat.pow_succ 2 lg
      omega
    rw [Nat.testBit_lt_two_pow h1, Nat.testBit_lt_two_pow (by omega)]

theorem sChar (cs : List Scalar) (k n : Nat) (hk : cs.length = k)
    (hn : n = 2 ^ k) (hu : ∀ c ∈ cs, c * scInv c = 1) :
    ∀ i, i < n → (sLoop (cs.map fun c => c * c) k (n - 1)
      [(cs.map scInv).prod]).getD i 0 = sSpec cs k i := by
  intro i
  induction i using Nat.strong_induction_on with
  | _ i IH =>
    intro hin
    rcases Nat.eq_zero_or_pos i with rfl | hipos
    · rw [sLoop_first, sSpec, list_prod_eq_range]
      have hlen : (cs.map scInv).length = k := by simp [hk]
      rw [hlen]
      refine Finset.prod_congr rfl fun j hj => ?_
      have hj' : j < k := Finset.mem_range.mp hj
      rw [Nat.zero_testBit, if_neg (by simp)]
      exact getD_map_of_lt scInv cs 0 1 (by omega)
    · have hne : i ≠ 0 := by omega
      have hlog : floorLg i = Nat.log 2 i := floorLg_eq_log i
      have hK1 : 2 ^ floorLg i ≤ i := by
        rw [hlog]; exact Nat.pow_log_le_self 2 hne
      have hK2 : i < 2 ^ (floorLg i + 1) := by
        rw [hlog]; exact Nat.lt_pow_succ_log_self (by norm_num) i
      have hlgk : floorLg i < k := by
        by_contra hc
        push_neg at hc
        have : 2 ^ k ≤ 2 ^ floorLg i := Nat.pow_le_pow_right (by norm_num) hc
        omega
      have hone : (1 : Nat) ≤ 2 ^ floorLg i := Nat.one_le_two_pow
      have hi'lt : i - 2 ^ floorLg i < 2 ^ floorLg i := by
        have := Nat.pow_succ 2 (floorLg i)
        omega
      have hi'lti : i - 2 ^ floorLg i < i := by omega
      have hrec := sLoop_rec (cs.map fun c => c * c) k (n - 1)
        [(cs.map scInv).prod] (by simp) i (by simpa using hipos)
        (by simp; omega)
      rw [hrec, IH (i - 2 ^ floorLg i) hi'lti (by omega)]
      have hj0 : k - 1 - floorLg i < k := by omega
      have hcsq : ((cs.map fun c => c * c).getD (k - 1 - floorLg i) 0) =
          cs.getD (k - 1 - floorLg i) 0 * cs.getD (k - 1 - floorLg i) 0 :=
        getD_map_of_lt _ _ 0 0 (by omega)
      rw [hcsq]
      have hc : cs.getD (k - 1 - floorLg i) 0 *
          scInv (cs.getD (k - 1 - floorLg i) 0) = 1 := by
        refine hu _ ?_
        rw [getD_of_lt _ _ (by omega)]
        exact List.getElem_mem _
      have hmem : k - 1 - floorLg i ∈ Finset.range k := Finset.mem_range.mpr hj0
      have hback : k - 1 - (k - 1 - floorLg i) = floorLg i := by omega
      have hidecomp : i = 2 ^ floorLg i + (i - 2 ^ floorLg i) := by omega
      -- split the target product at index j0 = k - 1 - lg
      have hsplit : ∀ m : Nat, sSpec cs k m =
          (if Nat.testBit m (floorLg i) then cs.getD (k - 1 - floorLg i) 0
            else scInv (cs.getD (k - 1 - floorLg i) 0)) *
          ∏ j ∈ (Finset.range k).erase (k - 1 - floorLg i),
            (if Nat.testBit m (k - 1 - j) then cs.getD j 0
              else scInv (cs.getD j 0)) := by
        intro m
        rw [sSpec, ← Finset.mul_prod_erase _ _ hmem, hback]
      have htbit_i : Nat.testBit i (floorLg i) = true := by
        have h2 := Nat.testBit_two_pow_add_eq (i - 2 ^ floorLg i) (floorLg i)
        rw [← hidecomp] at h2
        rw [h2, Nat.testBit_lt_two_pow hi'lt]
        rfl
      have htbit_i' : Nat.testBit (i - 2 ^ floorLg i) (floorLg i) = false :=
        Nat.testBit_lt_two_pow hi'lt
      have herase : ∏ j ∈ (Finset.range k).erase (k - 1 - floorLg i),
            (if Nat.testBit (i - 2 ^ floorLg i) (k - 1 - j) then cs.getD j 0
              else scInv (cs.getD j 0)) =
          ∏ j ∈ (Finset.range k).erase (k - 1 - floorLg i),
            (if Nat.testBit i (k - 1 - j) then cs.getD j 0
              else scInv (cs.getD j 0)) := by
        refine Finset.prod_congr rfl fun j hj => ?_
        have hj1 : j ∈ Finset.range k := Finset.mem_of_mem_erase hj
        have hj2 : j ≠ k - 1 - floorLg i := Finset.ne_of_mem_erase hj
        have hjk : j < k := Finset.mem_range.mp hj1
        have hbne : k - 1 - j ≠ floorLg i := by omega
        have h2 := testBit_shift_eq (i - 2 ^ floorLg i) hi'lt hbne
        rw [← hidecomp] at h2
        rw [h2]
      rw [hsplit i, hsplit (i - 2 ^ floorLg i), herase]
      rw [if_pos htbit_i, if_neg (by rw [htbit_i']; exact Bool.false_ne_true)]
      set E := ∏ j ∈ (Finset.range k).erase (k - 1 - floorLg i),
        (if Nat.testBit i (k - 1 - j) then cs.getD j 0
          else scInv (cs.getD j 0))
      linear_combination E * cs.getD (k - 1 - floorLg i) 0 * hc

/-! ### Destructuring verification_scalars -/

theorem vs_ok_char (p : InnerProductProof) (n : Nat) (t : Transcript)
    (usq uinvsq s : List Scalar) (t2 : Transcript)
    (h : verification_scalars p n t = (.ok (usq, uinvsq, s), t2)) :
    p.L_vec.length < 32 ∧ n = 2 ^ p.L_vec.length ∧
    roundsLoop (p.L_vec.zip p.R_vec) (innerproductDomainSep t n) =
      (.ok (ipChallenges p n t), t2) ∧
    usq = (ipChallenges p n t).map (fun c => c * c) ∧
    uinvsq = ((ipChallenges p n t).map scInv).map (fun c => c * c) ∧
    s = sLoop ((ipChallenges p n t).map fun c => c * c) p.L_vec.length (n - 1)
      [((ipChallenges p n t).map scInv).prod] := by
  have h1 : ¬ 32 ≤ p.L_vec.length := by
    intro hc
    simp [verification_scalars, hc] at h
  have h2 : n = 2 ^ p.L_vec.length := by
    by_contra hc
    simp [verification_scalars, h1, hc] at h
  rw [verification_scalars] at h
  rw [if_neg h1, if_neg (not_not_intro h2)] at h
  cases h3 : roundsLoop (p.L_vec.zip p.R_vec) (innerproductDomainSep t n) with
  | mk res t4 =>
    cases res with
    | err e =>
      rw [h3] at h
      simp at h
    | ok cs =>
      have hic : ipChallenges p n t = cs := by rw [ipChallenges, h3]
      rw [h3] at h
      simp only [Prod.mk.injEq, PResult.ok.injEq] at h
      obtain ⟨⟨ha, hb, hs⟩, ht⟩ := h
      subst ht
      refine ⟨by omega, h2, ?_, ?_, ?_, ?_⟩
      · rw [hic]
      · rw [hic]
        exact ha.symm
      · rw [hic]
        exact hb.symm
      · rw [hic]
        exact hs.symm

theorem vs_err_always (p : InnerProductProof) (n : Nat) (t : Transcript)
    (e : ProofError) (t2 : Transcript)
    (h : verification_scalars p n t = (.err e, t2)) :
    e = .VerificationError := by
  rw [verification_scalars] at h
  by_cases h1 : 32 ≤ p.L_vec.length
  · rw [if_pos h1] at h
    simp at h
    exact h.1.symm
  · rw [if_neg h1] at h
    by_cases h2 : n ≠ 2 ^ p.L_vec.length
    · rw [if_pos h2] at h
      simp at h
      exact h.1.symm
    · rw [if_neg h2] at h
      cases h3 : roundsLoop (p.L_vec.zip p.R_vec) (innerproductDomainSep t n) with
      | mk res t4 =>
        cases res with
        | ok cs =>
          rw [h3] at h
          simp at h
        | err e2 =>
          rw [h3] at h
          simp only [Prod.mk.injEq, PResult.err.injEq] at h
          rw [← h.1]
          exact (roundsLoop_err_char _ _ _ _ h3).1

theorem ipChallenges_length (p : InnerProductProof) (n : Nat) (t : Transcript)
    (t2 : Transcript)
    (hwf : p.L_vec.length = p.R_vec.length)
    (h : roundsLoop (p.L_vec.zip p.R_vec) (innerproductDomainSep t n) =
      (.ok (ipChallenges p n t), t2)) :
    (ipChallenges p n t).length = p.L_vec.length := by
  rw [roundsLoop_ok_length _ _ _ _ h, List.length_zip, ← hwf]
  omega

/-! ### Round counts of the prover -/

theorem createLoop_counts (Q : StarkPoint) (k : Nat) :
    ∀ t a b G H La Ra,
      (createLoop Q (2 ^ k) t a b G H La Ra).1.L_vec.length = La.length + k ∧
      (createLoop Q (2 ^ k) t a b G H La Ra).1.R_vec.length = Ra.length + k := by
  induction k with
  | zero =>
    intro t a b G H La Ra
    rw [createLoop]
    norm_num
  | succ k ih =>
    intro t a b G H La Ra
    rw [createLoop]
    have h2 : ¬ 2 ^ (k + 1) ≤ 1 := by
      have : 2 ^ 1 ≤ 2 ^ (k + 1) := Nat.pow_le_pow_right (by norm_num) (by omega)
      omega
    rw [if_neg h2]
    have hm : 2 ^ (k + 1) / 2 = 2 ^ k := by
      rw [pow_succ]
      exact Nat.mul_div_cancel _ (by norm_num)
    simp only [hm]
    constructor
    · rw [(ih _ _ _ _ _ _ _).1]
      simp
      omega
    · rw [(ih _ _ _ _ _ _ _).2]
      simp
      omega

theorem create_counts (t : Transcript) (Q : StarkPoint)
    (Gf Hf : List Scalar) (G Hv : List StarkPoint) (a b : List Scalar)
    (k : Nat) (h1 : Hv.length = G.length) (h2 : a.length = G.length)
    (h3 : b.length = G.length) (h4 : Gf.length = G.length)
    (h5 : Hf.length = G.length) (hn : G.length = 2 ^ k) :
    ∃ pr t2, create t Q Gf Hf G Hv a b = some (pr, t2) ∧
      pr.L_vec.length = k ∧ pr.R_vec.length = k := by
  simp only [create]
  rw [if_pos ⟨h1, h2, h3, h4, h5, by rw [hn, floorLg_pow]⟩]
  by_cases hone : G.length = 1
  · have hk : k = 0 := by
      rw [hone] at hn
      have := Nat.one_lt_two_pow_iff (n := k)
      omega
    rw [if_pos hone]
    exact ⟨_, _, rfl, by simp [hk], by simp [hk]⟩
  · rw [if_neg hone]
    have hk1 : 1 ≤ k := by
      by_contra hc
      push_neg at hc
      interval_cases k
      simp at hn
      exact hone hn
    have hm : G.length / 2 = 2 ^ (k - 1) := by
      rw [hn, show k = (k - 1) + 1 by omega, pow_succ]
      exact Nat.mul_div_cancel _ (by norm_num)
    rw [hm]
    refine ⟨_, _, rfl, ?_, ?_⟩
    · rw [(createLoop_counts Q (k - 1) _ _ _ _ _ _ _).1]
      simp
      omega
    · rw [(createLoop_counts Q (k - 1) _ _ _ _ _ _ _).2]
      simp
      omega

/-! ### Codec helpers -/

theorem take_append_exact (l₁ l₂ : List α) (n : Nat) (h : l₁.length = n) :
    (l₁ ++ l₂).take n = l₁ := by
  subst h
  rw [List.take_append_of_le_length le_rfl, List.take_length]

theorem drop_append_exact (l₁ l₂ : List α) (n : Nat) (h : l₁.length = n) :
    (l₁ ++ l₂).drop n = l₂ := by
  subst h
  rw [List.drop_append_of_le_length le_rfl, List.drop_length]
  rfl

theorem chunks_length (pairs : List (StarkPoint × StarkPoint)) :
    ((pairs.map fun x => pointToBytes x.1 ++ pointToBytes x.2).flatten).length
      = pairs.length * (2 * STARK_POINT_BYTES) := by
  induction pairs with
  | nil => simp
  | cons pr rest ih =>
    simp only [List.map_cons, List.flatten_cons, List.length_append, ih,
      length_pointToBytes, List.length_cons]
    ring

theorem pointsFrom_spec (L : List StarkPoint) :
    ∀ (R : List StarkPoint), L.length = R.length →
    ∀ (slice rest : List Nat) (i : Nat),
      slice.drop (2 * i * STARK_POINT_BYTES) =
        ((L.zip R).map fun x => pointToBytes x.1 ++ pointToBytes x.2).flatten
          ++ rest →
      pointsFrom slice i L.length = .ok (L, R) := by
  induction L with
  | nil =>
    intro R hlen slice rest i hdrop
    have hR : R = [] := List.length_eq_zero.mp hlen.symm
    subst hR
    rfl
  | cons P L ih =>
    intro R hlen slice rest i hdrop
    cases R with
    | nil => simp at hlen
    | cons Qp R =>
      have hlen' : L.length = R.length := by simpa using hlen
      simp only [List.zip_cons_cons, List.map_cons, List.flatten_cons,
        List.append_assoc] at hdrop
      have h1 : (slice.drop (2 * i * STARK_POINT_BYTES)).take
          STARK_POINT_BYTES = pointToBytes P := by
        rw [hdrop, take_append_exact _ _ _ (length_pointToBytes P)]
      have hd1 : slice.drop (2 * i * STARK_POINT_BYTES + STARK_POINT_BYTES) =
          pointToBytes Qp ++
            (((L.zip R).map fun x =>
              pointToBytes x.1 ++ pointToBytes x.2).flatten ++ rest) := by
        rw [← List.drop_drop, hdrop,
          drop_append_exact _ _ _ (length_pointToBytes P)]
      have h2 : (slice.drop (2 * i * STARK_POINT_BYTES +
          STARK_POINT_BYTES)).take STARK_POINT_BYTES = pointToBytes Qp := by
        rw [hd1, take_append_exact _ _ _ (length_pointToBytes Qp)]
      have hd2 : slice.drop (2 * (i + 1) * STARK_POINT_BYTES) =
          ((L.zip R).map fun x =>
            pointToBytes x.1 ++ pointToBytes x.2).flatten ++ rest := by
        rw [show 2 * (i + 1) * STARK_POINT_BYTES =
            (2 * i * STARK_POINT_BYTES + STARK_POINT_BYTES) +
              STARK_POINT_BYTES by
          simp only [STARK_POINT_BYTES]
          ring, ← List.drop_drop, hd1,
          drop_append_exact _ _ _ (length_pointToBytes Qp)]
      have hrec := ih R hlen' slice rest (i + 1) hd2
      show pointsFrom slice i (L.length + 1) = _
      rw [pointsFrom, h1, pointFromBytes_pointToBytes, h2,
        pointFromBytes_pointToBytes, hrec]

/-! ### Size checks of verification_scalars -/

theorem vs_size_err (p : InnerProductProof) (n : Nat) (t : Transcript)
    (h : 32 ≤ p.L_vec.length ∨ n ≠ 2 ^ p.L_vec.length) :
    verification_scalars p n t = (.err .VerificationError, t) := by
  rw [verification_scalars]
  rcases h with h | h
  · rw [if_pos h]
  · by_cases h1 : 32 ≤ p.L_vec.length
    · rw [if_pos h1]
    · rw [if_neg h1, if_pos h]

/-! ### Claim theorems -/

/-- C1: the claim states that `from_bytes` returns `FormatError` whenever the
slice length is below `2·SCALAR_BYTES`, or the length minus `2·SCALAR_BYTES`
is not a multiple of `STARK_POINT_BYTES`, or the implied point count is odd.
The second part is false on the code: the source never checks divisibility by
`STARK_POINT_BYTES` (the integer division discards the remainder), so a
129-byte all-zero slice — whose length minus 64 is 65, not a multiple of 32 —
decodes successfully, with the 33 trailing bytes folded into the scalar `b`.
This contradicts the function's own documentation ("the slice does not have
2n+2 32-byte elements" is listed as an error case) and spec §4.6 step 1. -/
theorem c1_from_bytes_unaligned_length_accepted :
    from_bytes (List.replicate 129 0) = .ok ⟨[0], [0], 0, 0⟩ ∧
    ¬ (129 - 2 * SCALAR_BYTES) % STARK_POINT_BYTES = 0 := by
  constructor
  · decide
  · decide

/-- C5: `verification_scalars` fails with `VerificationError` whenever
`k = |L_vec| ≥ 32` or `n ≠ 2^k`, and in those two cases the transcript it
returns is exactly the transcript passed in (no transcript interaction). -/
theorem c5_size_checks_before_transcript (p : InnerProductProof) (n : Nat)
    (t : Transcript) (h : 32 ≤ p.L_vec.length ∨ n ≠ 2 ^ p.L_vec.length) :
    verification_scalars p n t = (.err .VerificationError, t) :=
  vs_size_err p n t h

/-- Witness for C5 at a concrete input: the empty proof with `n = 2`. -/
theorem c5_size_checks_before_transcript_witness :
    verification_scalars ⟨[], [], 0, 0⟩ 2 [] = (.err .VerificationError, []) :=
  c5_size_checks_before_transcript ⟨[], [], 0, 0⟩ 2 [] (Or.inr (by decide))

/-- C10: when `verification_scalars` fails after its size checks (so on a
point-validation failure), the transcript it leaves behind has absorbed the
domain separator with `n` and all fully-processed rounds before the failing
point — plus the round's `L` when `L` validated but `R` failed — and is not
restored to its pre-call state. -/
theorem c10_transcript_on_point_failure (p : InnerProductProof) (n : Nat)
    (t : Transcript) (e : ProofError) (t2 : Transcript)
    (hk : p.L_vec.length < 32) (hn : n = 2 ^ p.L_vec.length)
    (h : verification_scalars p n t = (.err e, t2)) :
    ∃ i, i < (p.L_vec.zip p.R_vec).length ∧
      (∀ j < i, ((p.L_vec.zip p.R_vec).getD j (0, 0)).1 ≠ 0 ∧
        ((p.L_vec.zip p.R_vec).getD j (0, 0)).2 ≠ 0) ∧
      ((((p.L_vec.zip p.R_vec).getD i (0, 0)).1 = 0 ∧
        t2 = innerproductDomainSep t n ++
          (((p.L_vec.zip p.R_vec).take i).map roundAbsorb).flatten) ∨
       (((p.L_vec.zip p.R_vec).getD i (0, 0)).1 ≠ 0 ∧
        ((p.L_vec.zip p.R_vec).getD i (0, 0)).2 = 0 ∧
        t2 = innerproductDomainSep t n ++
          (((p.L_vec.zip p.R_vec).take i).map roundAbsorb).flatten ++
          [.point labelL
            (pointToBytes ((p.L_vec.zip p.R_vec).getD i (0, 0)).1)])) ∧
      t2 ≠ t := by
  rw [verification_scalars, if_neg (by omega), if_neg (not_not_intro hn)] at h
  cases h3 : roundsLoop (p.L_vec.zip p.R_vec) (innerproductDomainSep t n) with
  | mk res t4 =>
    cases res with
    | ok cs =>
      rw [h3] at h
      simp at h
    | err e2 =>
      rw [h3] at h
      simp only [Prod.mk.injEq, PResult.err.injEq] at h
      obtain ⟨-, ht⟩ := h
      subst ht
      obtain ⟨-, i, hi, hpre, hcase⟩ := roundsLoop_err_char _ _ _ _ h3
      refine ⟨i, hi, hpre, hcase, ?_⟩
      rcases hcase with ⟨-, htr⟩ | ⟨-, -, htr⟩
      · rw [htr]
        intro heq
        have hl := congrArg List.length heq
        simp only [innerproductDomainSep, List.length_append,
          List.length_cons, List.length_nil] at hl
        omega
      · rw [htr]
        intro heq
        have hl := congrArg List.length heq
        simp only [innerproductDomainSep, List.length_append,
          List.length_cons, List.length_nil] at hl
        omega

/-- Witness for C10 at a concrete input: a one-round proof whose `L` point is
the identity fails verification, and the transcript it leaves (holding the
domain separator) differs from the empty pre-call transcript. -/
theorem c10_transcript_on_point_failure_witness :
    verification_scalars ⟨[0], [1], 0, 0⟩ 2 [] =
      (.err .VerificationError, [.domainSep 2]) ∧
    ([TEvent.domainSep 2] : Transcript) ≠ ([] : Transcript) := by
  refine ⟨by decide, ?_⟩
  obtain ⟨i, hi, hpre, hcase, hne⟩ := c10_transcript_on_point_failure
    ⟨[0], [1], 0, 0⟩ 2 [] .VerificationError [.domainSep 2]
    (by decide) (by decide) (by decide)
  exact hne

/-- C7 (amended): for every valid input to `create` (six equal-length vectors
of length `n = 2^k`), the returned proof satisfies
`|L_vec| = |R_vec| = k` and `n = 2^|L_vec|`; the further cap `k < 32` of the
original claim holds exactly when `n < 2^32` — `create` itself never enforces
it (see the counterexample at `n = 2^32`). -/
theorem c7_create_round_counts (t : Transcript) (Q : StarkPoint)
    (Gf Hf : List Scalar) (G Hv : List StarkPoint) (a b : List Scalar)
    (k : Nat) (h1 : Hv.length = G.length) (h2 : a.length = G.length)
    (h3 : b.length = G.length) (h4 : Gf.length = G.length)
    (h5 : Hf.length = G.length) (hn : G.length = 2 ^ k) :
    ∃ pr t2, create t Q Gf Hf G Hv a b = some (pr, t2) ∧
      pr.L_vec.length = k ∧ pr.R_vec.length = k ∧
      G.length = 2 ^ pr.L_vec.length ∧
      (pr.L_vec.length < 32 ↔ G.length < 2 ^ 32) := by
  obtain ⟨pr, t2, hc, hL, hR⟩ := create_counts t Q Gf Hf G Hv a b k
    h1 h2 h3 h4 h5 hn
  refine ⟨pr, t2, hc, hL, hR, by rw [hL, ← hn], ?_⟩
  rw [hL, hn]
  exact (Nat.pow_lt_pow_iff_right (by norm_num)).symm

/-- Witness for C7 at a concrete input with `n = 2`. -/
theorem c7_create_round_counts_witness :
    ∃ pr t2, create [] 2 [1, 1] [1, 1] [3, 4] [5, 6] [7, 8] [9, 10] =
      some (pr, t2) ∧
      pr.L_vec.length = 1 ∧ pr.R_vec.length = 1 ∧
      ([3, 4] : List StarkPoint).length = 2 ^ pr.L_vec.length ∧
      (pr.L_vec.length < 32 ↔ ([3, 4] : List StarkPoint).length < 2 ^ 32) :=
  c7_create_round_counts [] 2 [1, 1] [1, 1] [3, 4] [5, 6] [7, 8] [9, 10] 1
    (by decide) (by decide) (by decide) (by decide) (by decide) (by decide)

/-- Counterexample to the `k < 32` part of C7 as originally stated: the valid
input of length `n = 2^32` (a power of two) makes `create` return a proof with
`|L_vec| = 32`, violating the claimed `k < 32`. -/
theorem c7_cap_counterexample :
    ∃ pr t2, create [] 0 (List.replicate (2 ^ 32) 0)
      (List.replicate (2 ^ 32) 0) (List.replicate (2 ^ 32) 0)
      (List.replicate (2 ^ 32) 0) (List.replicate (2 ^ 32) 0)
      (List.replicate (2 ^ 32) 0) = some (pr, t2) ∧
    ¬ pr.L_vec.length < 32 := by
  obtain ⟨pr, t2, hc, hL, hR⟩ := create_counts [] 0
    (List.replicate (2 ^ 32) 0) (List.replicate (2 ^ 32) 0)
    (List.replicate (2 ^ 32) 0) (List.replicate (2 ^ 32) 0)
    (List.replicate (2 ^ 32) 0) (List.replicate (2 ^ 32) 0) 32
    (by rw [List.length_replicate]) (by rw [List.length_replicate])
    (by rw [List.length_replicate]) (by rw [List.length_replicate])
    (by rw [List.length_replicate]) (by rw [List.length_replicate])
  exact ⟨pr, t2, hc, by omega⟩

/-- C8: for `n = 1` the prover performs no rounds: the proof has empty
`L_vec`, `R_vec`, its scalars are `a_vec[0]` and `b_vec[0]`, the transcript
only absorbs the domain separator, and the serialization has length exactly
`2·SCALAR_BYTES`. -/
theorem c8_create_n_one (t : Transcript) (Q : StarkPoint)
    (Gf Hf : List Scalar) (G Hv : List StarkPoint) (a b : List Scalar)
    (h1 : G.length = 1) (h2 : Hv.length = 1) (h3 : a.length = 1)
    (h4 : b.length = 1) (h5 : Gf.length = 1) (h6 : Hf.length = 1) :
    create t Q Gf Hf G Hv a b =
      some (⟨[], [], a.getD 0 0, b.getD 0 0⟩, innerproductDomainSep t 1) ∧
    (to_bytes ⟨[], [], a.getD 0 0, b.getD 0 0⟩).length = 2 * SCALAR_BYTES := by
  constructor
  · have hf : (2 : Nat) ^ floorLg 1 = 1 := by decide
    simp [create, h1, h2, h3, h4, h5, h6, hf]
  · simp [to_bytes, length_scalarToBytesBe]
    decide

/-- Witness for C8 at a concrete input. -/
theorem c8_create_n_one_witness :
    create [] 2 [1] [1] [3] [4] [5] [6] =
      some (⟨[], [], ([5] : List Scalar).getD 0 0,
        ([6] : List Scalar).getD 0 0⟩, innerproductDomainSep [] 1) ∧
    (to_bytes ⟨[], [], ([5] : List Scalar).getD 0 0,
      ([6] : List Scalar).getD 0 0⟩).length = 2 * SCALAR_BYTES :=
  c8_create_n_one [] 2 [1] [1] [3] [4] [5] [6]
    (by decide) (by decide) (by decide) (by decide) (by decide) (by decide)

/-- C9: every slice of length exactly `2·SCALAR_BYTES` is accepted by
`from_bytes`, yielding the zero-round proof whose scalars are the two
32-byte halves interpreted big-endian and reduced mod `q`; that proof is
rejected by `verification_scalars` for every `n ≠ 1` and accepted (at the
scalar-derivation stage) for `n = 1`. -/
theorem c9_from_bytes_minimal_slice (slice : List Nat)
    (h : slice.length = 2 * SCALAR_BYTES) :
    from_bytes slice = .ok ⟨[], [],
      scalarFromBeBytesModOrder (slice.take SCALAR_BYTES),
      scalarFromBeBytesModOrder (slice.drop SCALAR_BYTES)⟩ ∧
    (∀ n t, n ≠ 1 →
      verification_scalars (⟨[], [],
        scalarFromBeBytesModOrder (slice.take SCALAR_BYTES),
        scalarFromBeBytesModOrder (slice.drop SCALAR_BYTES)⟩ :
          InnerProductProof) n t = (.err .VerificationError, t)) ∧
    (∀ t, verification_scalars (⟨[], [],
      scalarFromBeBytesModOrder (slice.take SCALAR_BYTES),
      scalarFromBeBytesModOrder (slice.drop SCALAR_BYTES)⟩ :
        InnerProductProof) 1 t =
      (.ok ([], [], [1]), innerproductDomainSep t 1)) := by
  refine ⟨?_, ?_, ?_⟩
  · rw [from_bytes]
    norm_num [h, wsub64, SCALAR_BYTES, STARK_POINT_BYTES]
    rw [show pointsFrom slice 0 0 = .ok ([], []) from rfl]
  · intro n t hn
    exact vs_size_err _ n t (Or.inr (by simpa using hn))
  · intro t
    rw [verification_scalars]
    norm_num
    rfl

/-- Witness for C9 at a concrete input: the all-zero 64-byte slice. -/
theorem c9_from_bytes_minimal_slice_witness :
    from_bytes (List.replicate 64 0) = .ok ⟨[], [],
      scalarFromBeBytesModOrder ((List.replicate 64 0).take SCALAR_BYTES),
      scalarFromBeBytesModOrder ((List.replicate 64 0).drop SCALAR_BYTES)⟩ ∧
    (∀ n t, n ≠ 1 →
      verification_scalars (⟨[], [],
        scalarFromBeBytesModOrder ((List.replicate 64 0).take SCALAR_BYTES),
        scalarFromBeBytesModOrder ((List.replicate 64 0).drop SCALAR_BYTES)⟩ :
          InnerProductProof) n t = (.err .VerificationError, t)) ∧
    (∀ t, verification_scalars (⟨[], [],
      scalarFromBeBytesModOrder ((List.replicate 64 0).take SCALAR_BYTES),
      scalarFromBeBytesModOrder ((List.replicate 64 0).drop SCALAR_BYTES)⟩ :
        InnerProductProof) 1 t =
      (.ok ([], [], [1]), innerproductDomainSep t 1)) :=
  c9_from_bytes_minimal_slice (List.replicate 64 0) (by decide)

/-- C2: on success, the third output `s` of `verification_scalars(n, ...)`
has length `n` and satisfies `s_i = Π_{j=0..k-1} u_{k-j}^{e_j}` with
`u_k, ..., u_1` the `k` challenges in creation order (`cs[j] = u_{k-j}`) and
`e_j = +1` exactly when the bit of `i` at weight `2^{k-1-j}` is set (see
`sSpec`); in particular `s_0` is the product of all challenge inverses. The
proof is over a well-formed proof object (`|L_vec| = |R_vec|`, the spec §3
invariant) and assumes each recomputed challenge is invertible — the spec's
standing "all challenges invertible" assumption — expressed as
`c * scInv c = 1`. -/
theorem c2_verification_scalars_s_values (p : InnerProductProof) (n : Nat)
    (t : Transcript) (usq uinvsq s : List Scalar) (t2 : Transcript)
    (hwf : p.L_vec.length = p.R_vec.length)
    (h : verification_scalars p n t = (.ok (usq, uinvsq, s), t2))
    (hu : ∀ c ∈ ipChallenges p n t, c * scInv c = 1) :
    s.length = n ∧ ∀ i, i < n →
      s.getD i 0 = sSpec (ipChallenges p n t) p.L_vec.length i := by
  obtain ⟨hk32, hn, hrl, ha, hb, hs⟩ := vs_ok_char p n t usq uinvsq s t2 h
  have hcs : (ipChallenges p n t).length = p.L_vec.length :=
    ipChallenges_length p n t t2 hwf hrl
  have hpos : 1 ≤ n := by
    rw [hn]
    exact Nat.one_le_two_pow
  constructor
  · rw [hs, sLoop_length]
    simp
    omega
  · intro i hi
    rw [hs]
    exact sChar (ipChallenges p n t) p.L_vec.length n hcs hn hu i hi

/-- Witness for C2 at a concrete input: the zero-round proof with `n = 1`;
the output `s = [1]` matches the empty signed product. -/
theorem c2_verification_scalars_s_values_witness :
    ([1] : List Scalar).length = 1 ∧ ∀ i, i < 1 →
      ([1] : List Scalar).getD i 0 =
        sSpec (ipChallenges ⟨[], [], 3, 4⟩ 1 [])
          (⟨[], [], 3, 4⟩ : InnerProductProof).L_vec.length i :=
  c2_verification_scalars_s_values ⟨[], [], 3, 4⟩ 1 [] [] [] [1]
    [.domainSep 1] (by decide) (by decide)
    (by simp [ipChallenges, roundsLoop, innerproductDomainSep])

/-- Both branches of `fold_witness` compute the same four indexed maps; the
serial/parallel threshold has no observable effect. -/
theorem fold_witness_eq_maps (u u_inv : Scalar) (aL aR bL bR : List Scalar)
    (G_L G_R H_L H_R : List StarkPoint) :
    fold_witness u u_inv aL aR bL bR G_L G_R H_L H_R =
      ((List.range aL.length).map fun i =>
          aL.getD i 0 * u + u_inv * aR.getD i 0,
        (List.range aL.length).map fun i =>
          bL.getD i 0 * u_inv + u * bR.getD i 0,
        (List.range aL.length).map fun i =>
          msmList [u_inv, u] [G_L.getD i 0, G_R.getD i 0],
        (List.range aL.length).map fun i =>
          msmList [u, u_inv] [H_L.getD i 0, H_R.getD i 0]) := by
  rw [fold_witness]
  by_cases hn : aL.length < PARALLELISM_THRESHOLD
  · rw [if_pos hn]
  · rw [if_neg hn]
    simp [List.map_map, Function.comp]

/-- C4: for equal-length inputs of length `m`, the folding engine returns
four vectors of length `m` whose entries satisfy
`a'_i = u·aL_i + u⁻¹·aR_i`, `b'_i = u⁻¹·bL_i + u·bR_i`,
`G'_i = u⁻¹·GL_i + u·GR_i`, `H'_i = u·HL_i + u⁻¹·HR_i` (`u_inv` playing the
role of `u⁻¹`). The statement is uniform in `m`, so the result is the same on
the serial branch (`m < PARALLELISM_THRESHOLD`) and the parallel branch. -/
theorem c4_fold_witness_characterization (u u_inv : Scalar)
    (aL aR bL bR : List Scalar) (G_L G_R H_L H_R : List StarkPoint)
    (_h1 : aR.length = aL.length) (_h2 : bL.length = aL.length)
    (_h3 : bR.length = aL.length) (_h4 : G_L.length = aL.length)
    (_h5 : G_R.length = aL.length) (_h6 : H_L.length = aL.length)
    (_h7 : H_R.length = aL.length) :
    (fold_witness u u_inv aL aR bL bR G_L G_R H_L H_R).1.length = aL.length ∧
    (fold_witness u u_inv aL aR bL bR G_L G_R H_L H_R).2.1.length = aL.length ∧
    (fold_witness u u_inv aL aR bL bR G_L G_R H_L H_R).2.2.1.length = aL.length ∧
    (fold_witness u u_inv aL aR bL bR G_L G_R H_L H_R).2.2.2.length = aL.length ∧
    ∀ i, i < aL.length →
      (fold_witness u u_inv aL aR bL bR G_L G_R H_L H_R).1.getD i 0 =
        u * aL.getD i 0 + u_inv * aR.getD i 0 ∧
      (fold_witness u u_inv aL aR bL bR G_L G_R H_L H_R).2.1.getD i 0 =
        u_inv * bL.getD i 0 + u * bR.getD i 0 ∧
      (fold_witness u u_inv aL aR bL bR G_L G_R H_L H_R).2.2.1.getD i 0 =
        u_inv * G_L.getD i 0 + u * G_R.getD i 0 ∧
      (fold_witness u u_inv aL aR bL bR G_L G_R H_L H_R).2.2.2.getD i 0 =
        u * H_L.getD i 0 + u_inv * H_R.getD i 0 := by
  rw [fold_witness_eq_maps]
  refine ⟨by simp, by simp, by simp, by simp, fun i hi => ?_⟩
  have hgetD : ∀ (f : Nat → Scalar),
      ((List.range aL.length).map f).getD i 0 = f i := by
    intro f
    rw [getD_map_of_lt f _ 0 0 (by simpa using hi),
      getD_of_lt _ _ (by simpa using hi), List.getElem_range]
  refine ⟨?_, ?_, ?_, ?_⟩
  · rw [hgetD]
    ring
  · rw [hgetD]
    ring
  · rw [hgetD]
    simp [msmList]
  · rw [hgetD]
    simp [msmList]

/-- Witness for C4 at a concrete input of length 10, which exercises the
parallel branch (`10 ≥ PARALLELISM_THRESHOLD`). -/
theorem c4_fold_witness_characterization_witness :
    (fold_witness 2 3 (List.replicate 10 5) (List.replicate 10 6)
      (List.replicate 10 7) (List.replicate 10 8) (List.replicate 10 9)
      (List.replicate 10 10) (List.replicate 10 11)
      (List.replicate 10 12)).1.length = (List.replicate 10 (5 : Scalar)).length ∧
    (fold_witness 2 3 (List.replicate 10 5) (List.replicate 10 6)
      (List.replicate 10 7) (List.replicate 10 8) (List.replicate 10 9)
      (List.replicate 10 10) (List.replicate 10 11)
      (List.replicate 10 12)).2.1.length = (List.replicate 10 (5 : Scalar)).length ∧
    (fold_witness 2 3 (List.replicate 10 5) (List.replicate 10 6)
      (List.replicate 10 7) (List.replicate 10 8) (List.replicate 10 9)
      (List.replicate 10 10) (List.replicate 10 11)
      (List.replicate 10 12)).2.2.1.length = (List.replicate 10 (5 : Scalar)).length ∧
    (fold_witness 2 3 (List.replicate 10 5) (List.replicate 10 6)
      (List.replicate 10 7) (List.replicate 10 8) (List.replicate 10 9)
      (List.replicate 10 10) (List.replicate 10 11)
      (List.replicate 10 12)).2.2.2.length = (List.replicate 10 (5 : Scalar)).length ∧
    ∀ i, i < (List.replicate 10 (5 : Scalar)).length →
      (fold_witness 2 3 (List.replicate 10 5) (List.replicate 10 6)
        (List.replicate 10 7) (List.replicate 10 8) (List.replicate 10 9)
        (List.replicate 10 10) (List.replicate 10 11)
        (List.replicate 10 12)).1.getD i 0 =
          2 * (List.replicate 10 (5 : Scalar)).getD i 0 +
            3 * (List.replicate 10 (6 : Scalar)).getD i 0 ∧
      (fold_witness 2 3 (List.replicate 10 5) (List.replicate 10 6)
        (List.replicate 10 7) (List.replicate 10 8) (List.replicate 10 9)
        (List.replicate 10 10) (List.replicate 10 11)
        (List.replicate 10 12)).2.1.getD i 0 =
          3 * (List.replicate 10 (7 : Scalar)).getD i 0 +
            2 * (List.replicate 10 (8 : Scalar)).getD i 0 ∧
      (fold_witness 2 3 (List.replicate 10 5) (List.replicate 10 6)
        (List.replicate 10 7) (List.replicate 10 8) (List.replicate 10 9)
        (List.replicate 10 10) (List.replicate 10 11)
        (List.replicate 10 12)).2.2.1.getD i 0 =
          3 * (List.replicate 10 (9 : StarkPoint)).getD i 0 +
            2 * (List.replicate 10 (10 : StarkPoint)).getD i 0 ∧
      (fold_witness 2 3 (List.replicate 10 5) (List.replicate 10 6)
        (List.replicate 10 7) (List.replicate 10 8) (List.replicate 10 9)
        (List.replicate 10 10) (List.replicate 10 11)
        (List.replicate 10 12)).2.2.2.getD i 0 =
          2 * (List.replicate 10 (11 : StarkPoint)).getD i 0 +
            3 * (List.replicate 10 (12 : StarkPoint)).getD i 0 :=
  c4_fold_witness_characterization 2 3 (List.replicate 10 5)
    (List.replicate 10 6) (List.replicate 10 7) (List.replicate 10 8)
    (List.replicate 10 9) (List.replicate 10 10) (List.replicate 10 11)
    (List.replicate 10 12) (by decide) (by decide) (by decide) (by decide)
    (by decide) (by decide) (by decide)

/-- C6: the codec round-trips: for every proof with
`|L_vec| = |R_vec| = k < 32` (scalars are canonical by construction in the
field model), `from_bytes (to_bytes p)` returns `Ok` of a proof structurally
equal to `p`. -/
theorem c6_codec_roundtrip (p : InnerProductProof)
    (hwf : p.L_vec.length = p.R_vec.length) (hk : p.L_vec.length < 32) :
    from_bytes (to_bytes p) = .ok p := by
  have h64 : (2 : Nat) ^ 64 = 18446744073709551616 := by norm_num
  have hzlen : (p.L_vec.zip p.R_vec).length = p.L_vec.length := by
    rw [List.length_zip, ← hwf]
    omega
  have hflat : (((p.L_vec.zip p.R_vec).map fun x =>
      pointToBytes x.1 ++ pointToBytes x.2).flatten).length =
        p.L_vec.length * 64 := by
    rw [chunks_length, hzlen]
    norm_num [STARK_POINT_BYTES]
  have hblen : (to_bytes p).length = p.L_vec.length * 64 + 64 := by
    rw [to_bytes]
    simp only [List.length_append, hflat, length_scalarToBytesBe, SCALAR_BYTES]
  have hnum : wsub64 (to_bytes p).length (2 * SCALAR_BYTES) /
      STARK_POINT_BYTES = 2 * p.L_vec.length := by
    rw [hblen, wsub64]
    simp only [SCALAR_BYTES, STARK_POINT_BYTES, h64]
    omega
  simp only [from_bytes, hnum]
  rw [if_neg (by omega)]
  rw [if_neg (by omega)]
  have hlg : (2 * p.L_vec.length + 2 - 2) / 2 = p.L_vec.length := by omega
  rw [hlg, if_neg (by omega)]
  have hpf : pointsFrom (to_bytes p) 0 p.L_vec.length =
      .ok (p.L_vec, p.R_vec) := by
    refine pointsFrom_spec p.L_vec p.R_vec hwf (to_bytes p)
      (scalarToBytesBe p.a ++ scalarToBytesBe p.b) 0 ?_
    rw [show 2 * 0 * STARK_POINT_BYTES = 0 by simp, List.drop_zero, to_bytes,
      List.append_assoc]
  rw [hpf]
  have hpos : 2 * p.L_vec.length * STARK_POINT_BYTES = p.L_vec.length * 64 := by
    simp only [STARK_POINT_BYTES]
    ring
  have hdropA : (to_bytes p).drop (p.L_vec.length * 64) =
      scalarToBytesBe p.a ++ scalarToBytesBe p.b := by
    rw [to_bytes, List.append_assoc, drop_append_exact _ _ _ hflat]
  have hA : ((to_bytes p).drop (2 * p.L_vec.length *
      STARK_POINT_BYTES)).take SCALAR_BYTES = scalarToBytesBe p.a := by
    rw [hpos, hdropA, take_append_exact _ _ _ (length_scalarToBytesBe p.a)]
  have hB : (to_bytes p).drop (2 * p.L_vec.length * STARK_POINT_BYTES +
      SCALAR_BYTES) = scalarToBytesBe p.b := by
    rw [hpos, ← List.drop_drop, hdropA,
      drop_append_exact _ _ _ (length_scalarToBytesBe p.a)]
  rw [hA]
  rw [hB]
  rw [scalarFromBe_scalarToBe]
  rw [scalarFromBe_scalarToBe]

/-- Witness for C6 at a concrete one-round proof. -/
theorem c6_codec_roundtrip_witness :
    from_bytes (to_bytes ⟨[1], [2], 3, 4⟩) =
      .ok (⟨[1], [2], 3, 4⟩ : InnerProductProof) :=
  c6_codec_roundtrip ⟨[1], [2], 3, 4⟩ (by decide) (by decide)

/-- C3: with `|G| = |H| = n`, factor lists supplying at least `n` scalars,
and a well-formed proof (`|L_vec| = |R_vec|`, the spec §3 invariant),
`verify` returns `Ok` exactly when `verification_scalars` succeeds with some
output `(u², u⁻², s)` and
`P = (a·b)·Q + Σᵢ (a·sᵢ·G_factorsᵢ)·Gᵢ + Σᵢ (b·s_{n-1-i}·H_factorsᵢ)·Hᵢ
+ Σⱼ (−u²ⱼ)·Lⱼ + Σⱼ (−u⁻²ⱼ)·Rⱼ`; in every other case it returns
`VerificationError` (second conjunct: the result is always one of the two). -/
theorem c3_verify_characterization (p : InnerProductProof) (n : Nat)
    (t : Transcript) (G_factors H_factors : List Scalar) (P Q : StarkPoint)
    (G Hv : List StarkPoint)
    (hwf : p.L_vec.length = p.R_vec.length)
    (hG : G.length = n) (hH : Hv.length = n)
    (hGf : n ≤ G_factors.length) (hHf : n ≤ H_factors.length) :
    ((verify p n t G_factors H_factors P Q G Hv).1 = .ok () ↔
      (∃ usq uinvsq s t2,
        verification_scalars p n t = (.ok (usq, uinvsq, s), t2) ∧
        P = p.a * p.b * Q +
          (∑ i ∈ Finset.range n,
            p.a * s.getD i 0 * G_factors.getD i 0 * G.getD i 0) +
          (∑ i ∈ Finset.range n,
            p.b * s.getD (n - 1 - i) 0 * H_factors.getD i 0 * Hv.getD i 0) +
          (∑ j ∈ Finset.range p.L_vec.length,
            (-(usq.getD j 0)) * p.L_vec.getD j 0) +
          (∑ j ∈ Finset.range p.L_vec.length,
            (-(uinvsq.getD j 0)) * p.R_vec.getD j 0))) ∧
    ((verify p n t G_factors H_factors P Q G Hv).1 = .ok () ∨
      (verify p n t G_factors H_factors P Q G Hv).1 =
        .err .VerificationError) := by
  cases hv : verification_scalars p n t with
  | mk res t2 =>
    cases res with
    | err e =>
      have he : e = .VerificationError := vs_err_always p n t e t2 hv
      constructor
      · constructor
        · intro hok
          simp [verify, hv] at hok
        · rintro ⟨usq, uinvsq, s, t2x, hvs, -⟩
          simp at hvs
      · right
        simp [verify, hv, he]
    | ok out =>
      obtain ⟨usq, uinvsq, s⟩ := out
      obtain ⟨hk32, hn, hrl, ha, hb, hs⟩ := vs_ok_char p n t usq uinvsq s t2 hv
      have hcs : (ipChallenges p n t).length = p.L_vec.length :=
        ipChallenges_length p n t t2 hwf hrl
      have hnpos : 1 ≤ n := by
        rw [hn]
        exact Nat.one_le_two_pow
      have husq : usq.length = p.L_vec.length := by
        rw [ha, List.length_map, hcs]
      have huinv : uinvsq.length = p.L_vec.length := by
        rw [hb, List.length_map, List.length_map, hcs]
      have hslen : s.length = n := by
        rw [hs, sLoop_length]
        simp
        omega
      -- segment values
      have hseg1 : msmList
          (((G_factors.zip s).map fun x => (p.a * x.2) * x.1).take G.length) G =
          ∑ i ∈ Finset.range n,
            p.a * s.getD i 0 * G_factors.getD i 0 * G.getD i 0 := by
        have hzl : (G_factors.zip s).length = n := by
          rw [List.length_zip, hslen]
          omega
        have hlen : (((G_factors.zip s).map fun x =>
            (p.a * x.2) * x.1).take G.length).length = n := by
          simp [hzl, hG]
        rw [msmList_eq_sum _ _ (by rw [hlen, hG]), hlen]
        refine Finset.sum_congr rfl fun i hi => ?_
        have hi' : i < n := Finset.mem_range.mp hi
        rw [getD_take_of_lt _ _ (by omega) (by simp [hzl]; omega),
          getD_map_of_lt _ _ (0, 0) _ (by rw [hzl]; omega),
          getD_zip_of_lt _ _ 0 0 (by omega) (by omega)]
      have hseg2 : msmList
          ((H_factors.zip s.reverse).map fun x => (p.b * x.2) * x.1) Hv =
          ∑ i ∈ Finset.range n,
            p.b * s.getD (n - 1 - i) 0 * H_factors.getD i 0 * Hv.getD i 0 := by
        have hzl : (H_factors.zip s.reverse).length = n := by
          rw [List.length_zip, List.length_reverse, hslen]
          omega
        have hlen : ((H_factors.zip s.reverse).map fun x =>
            (p.b * x.2) * x.1).length = n := by
          simp [hzl]
        rw [msmList_eq_sum _ _ (by rw [hlen, hH]), hlen]
        refine Finset.sum_congr rfl fun i hi => ?_
        have hi' : i < n := Finset.mem_range.mp hi
        rw [getD_map_of_lt _ _ (0, 0) _ (by rw [hzl]; omega),
          getD_zip_of_lt _ _ 0 0 (by omega) (by rw [List.length_reverse, hslen]; omega),
          getD_reverse_of_lt _ _ (by rw [hslen]; omega), hslen]
      have hseg3 : msmList (usq.map fun u => -u) p.L_vec =
          ∑ j ∈ Finset.range p.L_vec.length,
            (-(usq.getD j 0)) * p.L_vec.getD j 0 := by
        have hlen : (usq.map fun u => -u).length = p.L_vec.length := by
          rw [List.length_map, husq]
        rw [msmList_eq_sum _ _ (by rw [hlen]), hlen]
        refine Finset.sum_congr rfl fun j hj => ?_
        have hj' : j < p.L_vec.length := Finset.mem_range.mp hj
        rw [getD_map_of_lt _ _ 0 _ (by omega)]
      have hseg4 : msmList (uinvsq.map fun u => -u) p.R_vec =
          ∑ j ∈ Finset.range p.L_vec.length,
            (-(uinvsq.getD j 0)) * p.R_vec.getD j 0 := by
        have hlen : (uinvsq.map fun u => -u).length = p.L_vec.length := by
          rw [List.length_map, huinv]
        rw [msmList_eq_sum _ _ (by rw [hlen, ← hwf]), hlen]
        refine Finset.sum_congr rfl fun j hj => ?_
        have hj' : j < p.L_vec.length := Finset.mem_range.mp hj
        rw [getD_map_of_lt _ _ 0 _ (by omega)]
      have hexp : msmList
          ([p.a * p.b] ++
            (((G_factors.zip s).map fun x => (p.a * x.2) * x.1).take G.length) ++
            ((H_factors.zip s.reverse).map fun x => (p.b * x.2) * x.1) ++
            (usq.map fun u => -u) ++ (uinvsq.map fun u => -u))
          ([Q] ++ G ++ Hv ++ p.L_vec ++ p.R_vec) =
          p.a * p.b * Q +
          (∑ i ∈ Finset.range n,
            p.a * s.getD i 0 * G_factors.getD i 0 * G.getD i 0) +
          (∑ i ∈ Finset.range n,
            p.b * s.getD (n - 1 - i) 0 * H_factors.getD i 0 * Hv.getD i 0) +
          (∑ j ∈ Finset.range p.L_vec.length,
            (-(usq.getD j 0)) * p.L_vec.getD j 0) +
          (∑ j ∈ Finset.range p.L_vec.length,
            (-(uinvsq.getD j 0)) * p.R_vec.getD j 0) := by
        have l1 : (([p.a * p.b] : List Scalar) ++
            (((G_factors.zip s).map fun x => (p.a * x.2) * x.1).take G.length)).length =
            (([Q] : List StarkPoint) ++ G).length := by
          simp [List.length_take, List.length_zip, hslen, hG]
          omega
        have l2 : ((([p.a * p.b] : List Scalar) ++
            (((G_factors.zip s).map fun x => (p.a * x.2) * x.1).take G.length)) ++
            ((H_factors.zip s.reverse).map fun x => (p.b * x.2) * x.1)).length =
            ((([Q] : List StarkPoint) ++ G) ++ Hv).length := by
          simp [List.length_take, List.length_zip, List.length_reverse,
            hslen, hG, hH]
          omega
        have l3 : (((([p.a * p.b] : List Scalar) ++
            (((G_factors.zip s).map fun x => (p.a * x.2) * x.1).take G.length)) ++
            ((H_factors.zip s.reverse).map fun x => (p.b * x.2) * x.1)) ++
            (usq.map fun u => -u)).length =
            (((([Q] : List StarkPoint) ++ G) ++ Hv) ++ p.L_vec).length := by
          simp [List.length_take, List.length_zip, List.length_reverse,
            hslen, hG, hH, husq]
          omega
        rw [msmList_append _ _ _ _ l3, msmList_append _ _ _ _ l2,
          msmList_append _ _ _ _ l1, msmList_append _ _ _ _ (by simp),
          msmList_single, hseg1, hseg2, hseg3, hseg4]
      constructor
      · constructor
        · intro hok
          refine ⟨usq, uinvsq, s, t2, rfl, ?_⟩
          simp only [verify, hv] at hok
          split at hok
          · rename_i hEP
            exact hEP.symm.trans hexp
          · simp at hok
        · rintro ⟨usq2, uinvsq2, s2, t2x, hvs, hP⟩
          simp only [Prod.mk.injEq, PResult.ok.injEq] at hvs
          obtain ⟨⟨h1x, h2x, h3x⟩, h4x⟩ := hvs
          subst h1x
          subst h2x
          subst h3x
          have hEP := hexp.trans hP.symm
          simp only [verify, hv]
          rw [if_pos hEP]
      · by_cases hEP : msmList
            ([p.a * p.b] ++
              (((G_factors.zip s).map fun x => (p.a * x.2) * x.1).take G.length) ++
              ((H_factors.zip s.reverse).map fun x => (p.b * x.2) * x.1) ++
              (usq.map fun u => -u) ++ (uinvsq.map fun u => -u))
            ([Q] ++ G ++ Hv ++ p.L_vec ++ p.R_vec) = P
        · left
          simp only [verify, hv]
          rw [if_pos hEP]
        · right
          simp only [verify, hv]
          rw [if_neg hEP]

/-- Witness for C3 at a concrete accepting instance with `n = 1`:
`P = a·b·Q + a·G₀ + b·H₀` for unit factors. -/
theorem c3_verify_characterization_witness :
    (verify ⟨[], [], 7, 11⟩ 1 [] [1] [1] 230 2 [3] [5]).1 = .ok () := by
  obtain ⟨hiff, -⟩ := c3_verify_characterization ⟨[], [], 7, 11⟩ 1 [] [1] [1]
    230 2 [3] [5] (by decide) (by decide) (by decide) (by decide) (by decide)
  refine hiff.mpr ⟨[], [], [1], [.domainSep 1], by decide, ?_⟩
  decide

end IPP
